import Mathlib

/-!
Verification development for the CSV user-upload utility (user_upload.js).

Strings are modelled as lists of characters.  JavaScript case conversion
(toUpperCase, toLowerCase) follows Unicode Default Case Conversion, a
string-to-string map: most characters map one-to-one, but SpecialCasing
entries expand, for example the sharp s upper-cases to the two-letter SS.
The pipeline model uses the per-character core Char.toUpper and
Char.toLower, exact on the basic latin range; the string-level conversion
with the sharp-s expansion is modelled separately (jsToUpper, jsToLower,
capitalizeJS) and is used for the idempotence analysis, where the
expansion matters.  The regex whitespace class is modelled by its ASCII
members, which is faithful for every character the properties below
mention.
-/

/-- Strings of the JavaScript program, as lists of characters. -/
abbrev Str := List Char

/-- The ASCII members of the regex whitespace class. -/
def jsSpace (c : Char) : Bool :=
  c = ' ' || c = '\t' || c = '\n' || c = '\r' || c = '\x0b' || c = '\x0c'

/-- Unit predicate of the character class excluding whitespace and the at
sign, as used by the email regex in validateEmail. -/
def atOk (c : Char) : Bool :=
  !jsSpace c && c != '@'

/-- Predicate used to scan up to the first at sign. -/
def notAt (c : Char) : Bool :=
  c != '@'

/-- A dot occurs at an interior position of the list: at index i with
1 <= i <= length - 2.  Used to express the tail pattern of the regex,
one or more allowed characters, a dot, one or more allowed characters. -/
def hasInteriorDot : Str → Bool
  | [] => false
  | _ :: t => t.dropLast.contains '.'

/-- Executable matcher for the anchored email regex of validateEmail:
one or more characters excluding whitespace and at, an at sign, one or
more such characters, a dot, one or more such characters.  Because the
character class excludes the at sign, a match forces exactly one at sign,
so the matcher splits at the first at sign. -/
def emailRegexMatch (s : Str) : Bool :=
  match s.dropWhile notAt with
  | [] => false
  | _ :: d =>
    let a := s.takeWhile notAt
    !a.isEmpty && a.all atOk && d.all atOk && hasInteriorDot d

/-- Declarative reading of the email regex: the string decomposes as
local part, at sign, domain head, dot, domain tail, with all three pieces
nonempty and drawn from the class excluding whitespace and at. -/
def emailRegexSpec (s : Str) : Prop :=
  ∃ a b c : Str, s = a ++ '@' :: (b ++ '.' :: c) ∧ a ≠ [] ∧ b ≠ [] ∧ c ≠ [] ∧
    a.all atOk = true ∧ b.all atOk = true ∧ c.all atOk = true

/-- validateEmail from the source: the regex test, short-circuit
conjunction with the check that segment 1 of the split at the at sign
contains a dot.  When the split has no segment 1 the member access on an
undefined value would raise, modelled as none. -/
def validateEmail (email : Str) : Option Bool :=
  if emailRegexMatch email then
    match (List.splitOn '@' email).get? 1 with
    | some d => some (d.contains '.')
    | none => none
  else
    some false

/-- The substring after the first at sign, when the string has one.
This is the phrasing used by the specification of the validator. -/
def afterFirstAt (s : Str) : Option Str :=
  match s.dropWhile notAt with
  | [] => none
  | _ :: d => some d

/-- capitalize from the source, per-character basic-latin model: first
character upper-cased, the rest of the string lower-cased; the empty
string maps to itself.  Exact for basic-latin strings; capitalizeJS
below refines it with the string-level sharp-s expansion. -/
def capitalize : Str → Str
  | [] => []
  | c :: t => c.toUpper :: t.map Char.toLower

/-- Modelled fragment of the string-level toUpperCase on one character:
exact on basic latin and on the SpecialCasing expansion of the sharp s,
which upper-cases to the two-letter SS; characters outside the fragment
are left unchanged. -/
def jsToUpperChar (c : Char) : Str :=
  if c = 'ß' then ['S', 'S'] else [c.toUpper]

/-- Modelled fragment of the string-level toLowerCase on one character:
exact on basic latin; no length-changing entry occurs in the inputs the
development evaluates. -/
def jsToLowerChar (c : Char) : Str :=
  [c.toLower]

/-- String-level toUpperCase: concatenation of the per-character maps. -/
def jsToUpper : Str → Str
  | [] => []
  | c :: t => jsToUpperChar c ++ jsToUpper t

/-- String-level toLowerCase: concatenation of the per-character maps. -/
def jsToLower : Str → Str
  | [] => []
  | c :: t => jsToLowerChar c ++ jsToLower t

/-- capitalize from the source with string-level case conversion:
charAt(0).toUpperCase() concatenated with slice(1).toLowerCase(). -/
def capitalizeJS (s : Str) : Str :=
  jsToUpper (s.take 1) ++ jsToLower (s.drop 1)

/-- One parsed CSV data row.  A field whose column is absent from the
file is an undefined property access in JavaScript, modelled as none. -/
structure RawRow where
  name : Option Str
  surname : Option Str
  email : Option Str
deriving DecidableEq

/-- A validated, normalized user record. -/
structure UserRecord where
  name : Str
  surname : Str
  email : Str
deriving DecidableEq

/-- Outcome of the per-row data handler of processCSVFile. -/
inductive RowResult where
  | ok (r : UserRecord)
  | invalid (email : Str)
  | typeError
deriving DecidableEq

/-- The data handler of processCSVFile on one row: capitalize name and
surname, lower-case the email, keep the record when validateEmail accepts
and otherwise log it as invalid.  A missing field makes the corresponding
method call raise, which escapes the handler (typeError). -/
def processRow (data : RawRow) : RowResult :=
  match data.name with
  | none => .typeError
  | some n =>
    match data.surname with
    | none => .typeError
    | some sn =>
      match data.email with
      | none => .typeError
      | some e =>
        let name := capitalize n
        let surname := capitalize sn
        let email := e.map Char.toLower
        match validateEmail email with
        | some true => .ok ⟨name, surname, email⟩
        | some false => .invalid email
        | none => .typeError

/-- Result of draining the row stream: either the stream ends normally
with the accumulated results, or an exception escaped a data handler and
the run crashed with the records accumulated so far. -/
inductive StreamResult where
  | finished (results : List UserRecord)
  | crashed (results : List UserRecord)
deriving DecidableEq

/-- Folding the data handler over the row stream in file order,
accumulating accepted records at the end of the results buffer. -/
def runRows (acc : List UserRecord) : List RawRow → StreamResult
  | [] => .finished acc
  | r :: rs =>
    match processRow r with
    | .ok u => runRows (acc ++ [u]) rs
    | .invalid _ => runRows acc rs
    | .typeError => .crashed acc

/-- A row is well formed when all three columns are present. -/
def wellFormed (r : RawRow) : Bool :=
  r.name.isSome && r.surname.isSome && r.email.isSome

/-- The record the data handler keeps for a row, when it keeps one. -/
def acceptedRecord (r : RawRow) : Option UserRecord :=
  match processRow r with
  | .ok u => some u
  | _ => none

/-- Result of the loader: final table contents, the emails attempted in
order, and the emails whose insert failed and was logged. -/
structure LoadResult where
  table : List UserRecord
  attempts : List Str
  failures : List Str
deriving DecidableEq

/-- insertDataIntoDB from the source: insert each record in order with an
individual try-catch.  The unique key on email makes an insert fail
exactly when the email is already present; a failure is logged and the
loop continues with the next record. -/
def insertDataIntoDB (table : List UserRecord) : List UserRecord → LoadResult
  | [] => ⟨table, [], []⟩
  | u :: rest =>
    if table.any (fun r => r.email == u.email) then
      let r := insertDataIntoDB table rest
      ⟨r.table, u.email :: r.attempts, u.email :: r.failures⟩
    else
      let r := insertDataIntoDB (table ++ [u]) rest
      ⟨r.table, u.email :: r.attempts, r.failures⟩

/-- Database operations observable by the database. -/
inductive DbOp where
  | createTable
  | insertAttempt (email : Str)
deriving DecidableEq

/-- processCSVFile from the source: drain the stream, then on end either
report the results without touching the database (dry run) or hand them
to the loader.  A crash of the stream means the promise never resolves
normally, modelled as none.  Returns the accumulated results, the final
table contents and the database operations issued. -/
def processCSVFile (table : List UserRecord) (dryRun : Bool) (rows : List RawRow) :
    Option (List UserRecord × List UserRecord × List DbOp) :=
  match runRows [] rows with
  | .finished results =>
    if dryRun then some (results, table, [])
    else
      let load := insertDataIntoDB table results
      some (results, load.table, load.attempts.map DbOp.insertAttempt)
  | .crashed _ => none

/-- Outcome of connectToDatabase: a live connection, or a process exit
with status 1 from the catch block. -/
inductive ConnResult where
  | conn
  | exitProcess (code : Nat)
deriving DecidableEq

/-- connectToDatabase from the source: a single attempt; on failure the
error is logged and the process exits with status 1. -/
def connectToDatabase (connectable : Bool) : ConnResult :=
  if connectable then .conn else .exitProcess 1

/-- createUsersTable from the source: CREATE TABLE IF NOT EXISTS, which
never removes existing rows. -/
def createUsersTable (table : List UserRecord) : List UserRecord :=
  table

/-- Command line arguments relevant to control flow. -/
structure Args where
  createTable : Bool
  file : Option (List RawRow)
  dryRun : Bool
deriving DecidableEq

/-- Outcome of one invocation: an explicit process exit with the
database operations issued before it, or normal completion with the
operations issued and the final table contents. -/
inductive MainResult where
  | exited (code : Nat) (ops : List DbOp)
  | completed (ops : List DbOp) (table : List UserRecord)
deriving DecidableEq

/-- main from the source: connect, then in order of precedence create
the table, process the file, or print usage; the connection is closed at
the end.  A connection failure exits before any other work.  Named
mainRun because Lean reserves the name main for entry points. -/
def mainRun (connectable : Bool) (args : Args) (table : List UserRecord) : MainResult :=
  match connectToDatabase connectable with
  | .exitProcess code => .exited code []
  | .conn =>
    if args.createTable then .completed [DbOp.createTable] (createUsersTable table)
    else
      match args.file with
      | some rows =>
        match processCSVFile table args.dryRun rows with
        | some (_, t2, ops) => .completed ops t2
        | none => .exited 1 []
      | none => .completed [] table

/-! ### Character case lemmas -/

theorem char_ofNat_toNat (n : Nat) (h : n.isValidChar) : (Char.ofNat n).toNat = n := by
  unfold Char.ofNat
  rw [dif_pos h]
  rfl

theorem char_toUpper_eq_self {c : Char} (h : ¬(c.toNat ≥ 97 ∧ c.toNat ≤ 122)) :
    c.toUpper = c := by
  unfold Char.toUpper
  exact if_neg h

theorem char_toUpper_not_lower (c : Char) :
    ¬(c.toUpper.toNat ≥ 97 ∧ c.toUpper.toNat ≤ 122) := by
  unfold Char.toUpper
  by_cases h : c.toNat ≥ 97 ∧ c.toNat ≤ 122
  · rw [if_pos h, char_ofNat_toNat _ (Or.inl (by omega))]
    omega
  · rw [if_neg h]
    exact h

theorem char_toUpper_idem (c : Char) : c.toUpper.toUpper = c.toUpper :=
  char_toUpper_eq_self (char_toUpper_not_lower c)

theorem char_toLower_eq_self {c : Char} (h : ¬(c.toNat ≥ 65 ∧ c.toNat ≤ 90)) :
    c.toLower = c := by
  unfold Char.toLower
  exact if_neg h

theorem char_toLower_not_upper (c : Char) :
    ¬(c.toLower.toNat ≥ 65 ∧ c.toLower.toNat ≤ 90) := by
  unfold Char.toLower
  by_cases h : c.toNat ≥ 65 ∧ c.toNat ≤ 90
  · rw [if_pos h, char_ofNat_toNat _ (Or.inl (by omega))]
    omega
  · rw [if_neg h]
    exact h

theorem char_toLower_idem (c : Char) : c.toLower.toLower = c.toLower :=
  char_toLower_eq_self (char_toLower_not_upper c)

theorem map_toLower_idem (t : Str) :
    (t.map Char.toLower).map Char.toLower = t.map Char.toLower := by
  induction t with
  | nil => rfl
  | cons c t ih => simp [List.map_cons, char_toLower_idem, ih]

theorem capitalize_idem (s : Str) : capitalize (capitalize s) = capitalize s := by
  cases s with
  | nil => rfl
  | cons c t => simp only [capitalize, char_toUpper_idem, map_toLower_idem]

theorem char_toUpper_ascii {c : Char} (h : c.toNat < 128) : c.toUpper.toNat < 128 := by
  unfold Char.toUpper
  by_cases hr : c.toNat ≥ 97 ∧ c.toNat ≤ 122
  · rw [if_pos hr, char_ofNat_toNat _ (Or.inl (by omega))]
    omega
  · rw [if_neg hr]
    exact h

theorem char_toLower_ascii {c : Char} (h : c.toNat < 128) : c.toLower.toNat < 128 := by
  unfold Char.toLower
  by_cases hr : c.toNat ≥ 65 ∧ c.toNat ≤ 90
  · rw [if_pos hr, char_ofNat_toNat _ (Or.inl (by omega))]
    omega
  · rw [if_neg hr]
    exact h

theorem capitalize_ascii {s : Str} (h : ∀ c ∈ s, c.toNat < 128) :
    ∀ c ∈ capitalize s, c.toNat < 128 := by
  cases s with
  | nil => intro c hc; simp [capitalize] at hc
  | cons a t =>
    intro c hc
    simp only [capitalize, List.mem_cons] at hc
    rcases hc with rfl | hc
    · exact char_toUpper_ascii (h a (List.mem_cons_self a t))
    · obtain ⟨b, hb, rfl⟩ := List.mem_map.mp hc
      exact char_toLower_ascii (h b (List.mem_cons_of_mem a hb))

theorem jsToUpperChar_ascii {c : Char} (h : c.toNat < 128) :
    jsToUpperChar c = [c.toUpper] := by
  rw [jsToUpperChar, if_neg]
  intro he
  subst he
  exact absurd h (by decide)

theorem jsToUpper_ascii {s : Str} (h : ∀ c ∈ s, c.toNat < 128) :
    jsToUpper s = s.map Char.toUpper := by
  induction s with
  | nil => rfl
  | cons c t ih =>
    rw [jsToUpper, jsToUpperChar_ascii (h c (List.mem_cons_self c t)),
      ih fun x hx => h x (List.mem_cons_of_mem c hx)]
    rfl

theorem jsToLower_eq_map (s : Str) : jsToLower s = s.map Char.toLower := by
  induction s with
  | nil => rfl
  | cons c t ih => rw [jsToLower, jsToLowerChar, ih]; rfl

theorem capitalizeJS_eq_capitalize {s : Str} (h : ∀ c ∈ s, c.toNat < 128) :
    capitalizeJS s = capitalize s := by
  cases s with
  | nil => rfl
  | cons c t =>
    have h1 : (c :: t).take 1 = [c] := rfl
    have h2 : (c :: t).drop 1 = t := rfl
    have hc : ∀ x ∈ [c], x.toNat < 128 := by
      intro x hx
      rw [List.mem_singleton] at hx
      rw [hx]
      exact h c (List.mem_cons_self c t)
    rw [capitalizeJS, h1, h2, jsToUpper_ascii hc, jsToLower_eq_map]
    rfl

/-! ### Scanning and regex decomposition lemmas -/

theorem ne_at_of_atOk {c : Char} (h : atOk c = true) : c ≠ '@' := by
  intro he
  subst he
  exact absurd h (by decide)

theorem not_mem_at_of_all {l : Str} (h : l.all atOk = true) : '@' ∉ l := by
  intro hm
  exact ne_at_of_atOk (List.all_eq_true.mp h _ hm) rfl

theorem scan_first_at {a : Str} (ha : '@' ∉ a) (rest : Str) :
    (a ++ '@' :: rest).takeWhile notAt = a ∧
      (a ++ '@' :: rest).dropWhile notAt = '@' :: rest := by
  induction a with
  | nil =>
    constructor <;> simp [notAt]
  | cons c t ih =>
    have hc : c ≠ '@' := fun he => ha (he ▸ List.mem_cons_self c t)
    have hn : notAt c = true := by simp [notAt, hc]
    have ht := ih fun hm => ha (List.mem_cons_of_mem _ hm)
    constructor <;>
      simp [List.takeWhile_cons_of_pos hn, List.dropWhile_cons_of_pos hn, ht.1, ht.2]

theorem hasInteriorDot_decomp {d : Str} (h : hasInteriorDot d = true) :
    ∃ b c : Str, d = b ++ '.' :: c ∧ b ≠ [] ∧ c ≠ [] := by
  cases d with
  | nil => simp [hasInteriorDot] at h
  | cons y t =>
    simp only [hasInteriorDot] at h
    rw [List.contains_eq_any_beq] at h
    obtain ⟨x, hx, hbeq⟩ := List.any_eq_true.mp h
    have hxe : x = '.' := (eq_of_beq hbeq).symm
    subst hxe
    obtain ⟨u, v, huv⟩ := List.append_of_mem hx
    have ht : t ≠ [] := by
      intro h0
      rw [h0] at hx
      simp at hx
    have htl := List.dropLast_concat_getLast ht
    refine ⟨y :: u, v ++ [t.getLast ht], ?_, by simp, by simp⟩
    have ht2 : t = u ++ '.' :: (v ++ [t.getLast ht]) := by
      conv_lhs => rw [← htl]
      rw [huv]
      simp
    rw [List.cons_append]
    exact congrArg (y :: ·) ht2

theorem hasInteriorDot_of_decomp {b c : Str} (hb : b ≠ []) (hc : c ≠ []) :
    hasInteriorDot (b ++ '.' :: c) = true := by
  rcases b with _ | ⟨z, b2⟩
  · exact absurd rfl hb
  rcases List.eq_nil_or_concat c with rfl | ⟨c2, cl, rfl⟩
  · exact absurd rfl hc
  simp only [hasInteriorDot, List.concat_eq_append, List.cons_append]
  have harr : b2 ++ '.' :: (c2 ++ [cl]) = (b2 ++ '.' :: c2) ++ [cl] := by simp
  rw [harr, List.dropLast_concat, List.contains_eq_any_beq]
  exact List.any_eq_true.mpr ⟨'.', by simp, by simp⟩

theorem emailRegexMatch_decomp {s : Str} (h : emailRegexMatch s = true) :
    ∃ a d : Str, s = a ++ '@' :: d ∧ a ≠ [] ∧ a.all atOk = true ∧ d.all atOk = true ∧
      hasInteriorDot d = true := by
  rcases hd : s.dropWhile notAt with _ | ⟨x, d⟩
  · rw [emailRegexMatch, hd] at h
    exact absurd h (by simp)
  · have h2 := List.head?_dropWhile_not notAt s
    rw [hd] at h2
    simp only [List.head?_cons] at h2
    have hx : x = '@' := by simpa [notAt] using h2
    subst hx
    rw [emailRegexMatch, hd] at h
    simp only [Bool.and_eq_true, Bool.not_eq_true', List.isEmpty_eq_false] at h
    obtain ⟨⟨⟨hne, hall⟩, hdall⟩, hdot⟩ := h
    refine ⟨s.takeWhile notAt, d, ?_, hne, hall, hdall, hdot⟩
    have happ := List.takeWhile_append_dropWhile (p := notAt) (l := s)
    rw [hd] at happ
    exact happ.symm

theorem emailRegexMatch_of_decomp {a d : Str} (ha : a ≠ []) (h1 : a.all atOk = true)
    (h2 : d.all atOk = true) (h3 : hasInteriorDot d = true) :
    emailRegexMatch (a ++ '@' :: d) = true := by
  have hsc := scan_first_at (not_mem_at_of_all h1) d
  rw [emailRegexMatch, hsc.2, hsc.1]
  simp [ha, h1, h2, h3]

theorem emailRegexMatch_iff_spec (s : Str) : emailRegexMatch s = true ↔ emailRegexSpec s := by
  constructor
  · intro h
    obtain ⟨a, d, heq, ha, h1, h2, h3⟩ := emailRegexMatch_decomp h
    obtain ⟨b, c, hbc, hb, hc⟩ := hasInteriorDot_decomp h3
    subst hbc
    rw [List.all_append, Bool.and_eq_true, List.all_cons, Bool.and_eq_true] at h2
    exact ⟨a, b, c, by rw [heq], ha, hb, hc, h1, h2.1, h2.2.2⟩
  · rintro ⟨a, b, c, heq, ha, hb, hc, h1, h2, h3⟩
    rw [heq]
    refine emailRegexMatch_of_decomp ha h1 ?_ (hasInteriorDot_of_decomp hb hc)
    rw [List.all_append, List.all_cons]
    simp [h2, h3]
    decide

theorem splitOn_decomp {a d : Str} (ha : '@' ∉ a) (hd : '@' ∉ d) :
    List.splitOn '@' (a ++ '@' :: d) = [a, d] := by
  have hpa : ∀ x ∈ a, ¬((x == '@') = true) := by
    intro x hx hbeq
    exact ha ((eq_of_beq hbeq) ▸ hx)
  have hpd : ∀ x ∈ d, ¬((x == '@') = true) := by
    intro x hx hbeq
    exact hd ((eq_of_beq hbeq) ▸ hx)
  show (a ++ '@' :: d).splitOnP (· == '@') = [a, d]
  rw [List.splitOnP_first (· == '@') a hpa '@' (by simp) d,
    List.splitOnP_eq_single (· == '@') d hpd]

theorem validateEmail_of_match {s : Str} (h : emailRegexMatch s = true) :
    ∃ a d : Str, s = a ++ '@' :: d ∧ '@' ∉ a ∧ '@' ∉ d ∧
      validateEmail s = some (d.contains '.') ∧ afterFirstAt s = some d := by
  obtain ⟨a, d, heq, _, h1, h2, _⟩ := emailRegexMatch_decomp h
  have hna : '@' ∉ a := not_mem_at_of_all h1
  have hnd : '@' ∉ d := not_mem_at_of_all h2
  have hsplit : List.splitOn '@' s = [a, d] := by
    rw [heq]
    exact splitOn_decomp hna hnd
  have hafter : afterFirstAt s = some d := by
    rw [afterFirstAt, heq, (scan_first_at hna d).2]
  refine ⟨a, d, heq, hna, hnd, ?_, hafter⟩
  rw [validateEmail, if_pos h, hsplit]
  rfl

theorem validateEmail_total (s : Str) : ∃ b, validateEmail s = some b := by
  by_cases h : emailRegexMatch s = true
  · obtain ⟨a, d, _, _, _, hv, _⟩ := validateEmail_of_match h
    exact ⟨_, hv⟩
  · exact ⟨false, by rw [validateEmail, if_neg h]⟩

/-! ### Row handler and stream lemmas -/

theorem processRow_eq (n sn e : Str) :
    processRow ⟨some n, some sn, some e⟩ =
      if validateEmail (e.map Char.toLower) = some true
      then RowResult.ok ⟨capitalize n, capitalize sn, e.map Char.toLower⟩
      else RowResult.invalid (e.map Char.toLower) := by
  obtain ⟨b, hb⟩ := validateEmail_total (e.map Char.toLower)
  cases b <;> simp [processRow, hb]

theorem processRow_not_typeError {r : RawRow} (h : wellFormed r = true) :
    processRow r ≠ RowResult.typeError := by
  obtain ⟨n, sn, e⟩ := r
  rcases n with _ | n <;> rcases sn with _ | sn <;> rcases e with _ | e <;>
    simp_all [wellFormed]
  rw [processRow_eq]
  split <;> simp

theorem runRows_finished {rows : List RawRow} (h : ∀ r ∈ rows, wellFormed r = true) :
    ∀ acc, runRows acc rows = StreamResult.finished (acc ++ rows.filterMap acceptedRecord) := by
  induction rows with
  | nil =>
    intro acc
    simp [runRows]
  | cons r rs ih =>
    intro acc
    have hr := h r (List.mem_cons_self r rs)
    have ihs := ih fun x hx => h x (List.mem_cons_of_mem r hx)
    cases hp : processRow r with
    | ok u =>
      simp only [runRows, hp]
      rw [ihs (acc ++ [u]), List.filterMap_cons]
      simp [acceptedRecord, hp, List.append_assoc]
    | invalid em =>
      simp only [runRows, hp]
      rw [ihs acc, List.filterMap_cons]
      simp [acceptedRecord, hp]
    | typeError => exact absurd hp (processRow_not_typeError hr)

theorem insertDataIntoDB_attempts (users : List UserRecord) :
    ∀ table, (insertDataIntoDB table users).attempts = users.map (fun u => u.email) := by
  induction users with
  | nil => intro table; rfl
  | cons u rest ih =>
    intro table
    simp only [insertDataIntoDB]
    split <;> simp [ih]

/-! ### Claims -/

/-- Claim C1: the validator accepts a string exactly when it matches the
email shape regex and the substring after the first at sign contains a
dot; in particular not-an-email and a@b are rejected. -/
theorem C1_validateEmail_accepts_iff :
    (∀ e : Str, validateEmail e = some true ↔
      (emailRegexSpec e ∧ ∃ d, afterFirstAt e = some d ∧ d.contains '.' = true)) ∧
    validateEmail ("not-an-email".toList) = some false ∧
    validateEmail ("a@b".toList) = some false := by
  refine ⟨fun e => ⟨?_, ?_⟩, by decide, by decide⟩
  · intro h
    have hm : emailRegexMatch e = true := by
      by_contra hm
      rw [validateEmail, if_neg hm] at h
      simp at h
    obtain ⟨a, d, heq, hna, hnd, hv, hafter⟩ := validateEmail_of_match hm
    rw [hv] at h
    exact ⟨(emailRegexMatch_iff_spec e).mp hm, d, hafter, by simpa using h⟩
  · rintro ⟨hspec, d0, hafter0, hdot0⟩
    have hm : emailRegexMatch e = true := (emailRegexMatch_iff_spec e).mpr hspec
    obtain ⟨a, d, heq, hna, hnd, hv, hafter⟩ := validateEmail_of_match hm
    have hdd : d = d0 := by
      rw [hafter] at hafter0
      exact Option.some.inj hafter0
    rw [hv, hdd, hdot0]

/-- Claim C2: the row handler capitalizes name and surname with
capitalize (first character upper-cased, the rest lower-cased) and
lower-cases the email entirely, keeping the record exactly when the
lower-cased email validates; in particular the row jane, DOE,
Jane.Doe@EXAMPLE.com normalizes to Jane, Doe, jane.doe@example.com. -/
theorem C2_normalization_round_trip :
    (∀ n sn e : Str,
      processRow ⟨some n, some sn, some e⟩ =
        if validateEmail (e.map Char.toLower) = some true
        then RowResult.ok ⟨capitalize n, capitalize sn, e.map Char.toLower⟩
        else RowResult.invalid (e.map Char.toLower)) ∧
    processRow ⟨some ("jane".toList), some ("DOE".toList),
        some ("Jane.Doe@EXAMPLE.com".toList)⟩ =
      RowResult.ok ⟨"Jane".toList, "Doe".toList, "jane.doe@example.com".toList⟩ :=
  ⟨processRow_eq, by decide⟩

/-- Claim C3: on a stream of rows with all three columns present, the
accumulated sequence is exactly the normalized forms of the rows whose
email validates, in file order; rejected rows are skipped and never
abort the stream. -/
theorem C3_pipeline_order_preserving (rows : List RawRow)
    (h : ∀ r ∈ rows, wellFormed r = true) :
    runRows [] rows = StreamResult.finished (rows.filterMap acceptedRecord) := by
  simpa using runRows_finished h []

theorem C3_witness :
    runRows []
        [⟨some ("jane".toList), some ("DOE".toList), some ("Jane.Doe@EXAMPLE.com".toList)⟩,
          ⟨some ("bob".toList), some ("smith".toList), some ("not-an-email".toList)⟩,
          ⟨some ("ann".toList), some ("lee".toList), some ("a@b.c".toList)⟩] =
      StreamResult.finished
        [⟨"Jane".toList, "Doe".toList, "jane.doe@example.com".toList⟩,
          ⟨"Ann".toList, "Lee".toList, "a@b.c".toList⟩] := by
  rw [C3_pipeline_order_preserving _ (by decide)]
  decide

/-- Claim C4: the loader attempts every record exactly once in sequence
order, and for two records with the same email the first insert succeeds
and stays in the table while the second fails and is logged, the batch
completing. -/
theorem C4_loader_per_record_isolation :
    (∀ (table : List UserRecord) (users : List UserRecord),
      (insertDataIntoDB table users).attempts = users.map (fun u => u.email)) ∧
    (∀ u v : UserRecord, u.email = v.email →
      insertDataIntoDB [] [u, v] = ⟨[u], [u.email, v.email], [v.email]⟩) := by
  constructor
  · intro table users
    exact insertDataIntoDB_attempts users table
  · intro u v h
    simp [insertDataIntoDB, h]

theorem C4_witness :
    insertDataIntoDB []
        [⟨"John".toList, "Doe".toList, "j@d.io".toList⟩,
          ⟨"Jane".toList, "Doe".toList, "j@d.io".toList⟩] =
      ⟨[⟨"John".toList, "Doe".toList, "j@d.io".toList⟩],
        ["j@d.io".toList, "j@d.io".toList], ["j@d.io".toList]⟩ :=
  C4_loader_per_record_isolation.2 _ _ rfl

/-- Claim C5: with the dry-run flag the pipeline accumulates exactly the
same record sequence as without it, issues no database operation, and
leaves the table unchanged. -/
theorem C5_dry_run_invariant (table : List UserRecord) (rows : List RawRow) :
    ((processCSVFile table true rows).map (fun x => x.1) =
      (processCSVFile table false rows).map (fun x => x.1)) ∧
    (∀ out, processCSVFile table true rows = some out →
      out.2.1 = table ∧ out.2.2 = []) := by
  cases hrr : runRows [] rows with
  | finished results =>
    constructor
    · simp [processCSVFile, hrr]
    · intro out hout
      simp only [processCSVFile, hrr, if_pos] at hout
      obtain rfl : (results, table, ([] : List DbOp)) = out := by simpa using hout
      exact ⟨rfl, rfl⟩
  | crashed res =>
    constructor
    · simp [processCSVFile, hrr]
    · intro out hout
      simp [processCSVFile, hrr] at hout

theorem C5_witness :
    ((processCSVFile [] true
        [⟨some ("jane".toList), some ("DOE".toList), some ("Jane.Doe@EXAMPLE.com".toList)⟩]).map
        (fun x => x.1) =
      (processCSVFile [] false
        [⟨some ("jane".toList), some ("DOE".toList), some ("Jane.Doe@EXAMPLE.com".toList)⟩]).map
        (fun x => x.1)) ∧
    ((([⟨"Jane".toList, "Doe".toList, "jane.doe@example.com".toList⟩], [], []) :
        List UserRecord × List UserRecord × List DbOp).2.1 = ([] : List UserRecord) ∧
      (([⟨"Jane".toList, "Doe".toList, "jane.doe@example.com".toList⟩], [], []) :
        List UserRecord × List UserRecord × List DbOp).2.2 = ([] : List DbOp)) :=
  ⟨(C5_dry_run_invariant []
      [⟨some ("jane".toList), some ("DOE".toList), some ("Jane.Doe@EXAMPLE.com".toList)⟩]).1,
    (C5_dry_run_invariant []
      [⟨some ("jane".toList), some ("DOE".toList), some ("Jane.Doe@EXAMPLE.com".toList)⟩]).2
      ([⟨"Jane".toList, "Doe".toList, "jane.doe@example.com".toList⟩], [], []) (by decide)⟩

/-- Claim C6, code behavior at the failing input: a row whose name is the
empty string and whose email is valid is accepted by the data handler as
a record with an empty name; there is no EmptyField rejection anywhere
in the code, contrary to the claim. -/
theorem C6_empty_name_row_accepted :
    processRow ⟨some [], some ("doe".toList), some ("a@b.c".toList)⟩ =
      RowResult.ok ⟨[], "Doe".toList, "a@b.c".toList⟩ := by
  decide

/-- Claim C7, counterexample to the unrestricted statement: the sharp s
has length 1, its capitalization is the two-letter SS (SpecialCasing
expansion of toUpperCase), and capitalizing SS gives Ss, so capitalize
composed with itself differs from capitalize at this input. -/
theorem C7_counterexample :
    1 ≤ (['ß'] : Str).length ∧
      capitalizeJS (['ß'] : Str) = ['S', 'S'] ∧
      capitalizeJS (capitalizeJS (['ß'] : Str)) = ['S', 's'] ∧
      capitalizeJS (capitalizeJS (['ß'] : Str)) ≠ capitalizeJS (['ß'] : Str) := by
  decide

/-- Claim C7 as amended: capitalize is idempotent on strings of length at
least 1 all of whose characters are basic latin (code point below 128);
the restriction is forced by the sharp s, whose uppercase is the
two-letter SS, which re-capitalizes to Ss. -/
theorem C7_capitalize_idempotent_on_basic_latin (s : Str) (_h1 : 1 ≤ s.length)
    (h2 : ∀ c ∈ s, c.toNat < 128) :
    capitalizeJS (capitalizeJS s) = capitalizeJS s := by
  have hcap : capitalizeJS s = capitalize s := capitalizeJS_eq_capitalize h2
  rw [hcap, capitalizeJS_eq_capitalize (capitalize_ascii h2), capitalize_idem]

theorem C7_witness :
    (1 ≤ ("jOHN".toList : Str).length ∧ ∀ c ∈ ("jOHN".toList : Str), c.toNat < 128) ∧
      capitalizeJS (capitalizeJS ("jOHN".toList)) = capitalizeJS ("jOHN".toList) :=
  ⟨⟨by decide, by decide⟩,
    C7_capitalize_idempotent_on_basic_latin ("jOHN".toList) (by decide) (by decide)⟩

/-- Claim C8: when the connection cannot be established the invocation
exits with status 1 and issues no database operation at all. -/
theorem C8_connection_failure_aborts :
    ∀ (args : Args) (table : List UserRecord),
      mainRun false args table = MainResult.exited 1 [] := by
  intro args table
  rfl

/-- Claim C9: the validator is total: it returns a boolean on every
string, because the dot check on the split runs only after the regex has
matched, which guarantees an at sign is present. -/
theorem C9_validateEmail_is_total : ∀ e : Str, (validateEmail e).isSome = true := by
  intro e
  obtain ⟨b, hb⟩ := validateEmail_total e
  rw [hb]
  rfl

/-- Claim C10: a row with name and surname present but no email column
makes the handler raise instead of logging a rejection, and the raised
error escapes the handler, aborting the stream with only the previously
accumulated records. -/
theorem C10_missing_email_escapes :
    ∀ (n sn : Str) (acc : List UserRecord) (post : List RawRow),
      processRow ⟨some n, some sn, none⟩ = RowResult.typeError ∧
      runRows acc (⟨some n, some sn, none⟩ :: post) = StreamResult.crashed acc := by
  intro n sn acc post
  exact ⟨rfl, rfl⟩
